import Mathlib

/-!
Verification of the transcript-store web application (`app.py`).

Strings are modelled as `List Char`; Python's `str.lower` as character-wise
`Char.toLower`; the transcript folder as a list of stored JSON files, each
either well-formed, well-formed-but-missing-the-`transcript`-key, or
malformed (unparseable).  A Python exception escaping a request handler is
modelled as `Except.error`.
-/

/-- Strings, modelled as lists of characters (Python `str`). -/
abbrev Str := List Char

/-- Python `s.lower()`, character-wise. -/
def lowerStr (s : Str) : Str := s.map Char.toLower

/-- Occurrence test: `occursAt t q i` holds when the substring
`t[i : i + len q]` equals `q`. -/
def occursAt (t q : Str) (i : Nat) : Bool :=
  decide ((t.drop i).take q.length = q)

/-- Python `q in t`: some position of `t` carries an occurrence of `q`. -/
def containsSub (t q : Str) : Bool :=
  (List.range (t.length + 1)).any (occursAt t q)

/-- Scan of positions `i, i+1, ...` for an occurrence of `q`; gives up past
the end of `t`.  `fuel` makes the recursion structural; `t.length + 1 - i`
always suffices. -/
def findFromAux (t q : Str) : Nat → Nat → Option Nat
  | 0, _ => none
  | fuel + 1, i =>
    if i ≤ t.length then
      if occursAt t q i then some i else findFromAux t q fuel (i + 1)
    else none

/-- Python `t.find(q, i)`: the lowest position `≥ i` where `q` occurs, or
`none` (Python `-1`). -/
def findFrom (t q : Str) (i : Nat) : Option Nat :=
  findFromAux t q (t.length + 1 - i) i

/-- Loop of Python `t.count(q)`: counts non-overlapping occurrences
left to right, advancing past each found occurrence; `fuel` bounds the
recursion (`t.length + 1` always suffices for nonempty `q`). -/
def countFrom (t q : Str) (i fuel : Nat) : Nat :=
  match fuel with
  | 0 => 0
  | fuel + 1 =>
    match findFrom t q i with
    | none => 0
    | some pos => 1 + countFrom t q (pos + q.length) fuel

/-- Python `t.count(q)` (non-overlapping, greedy, left to right). -/
def countSub (t q : Str) : Nat := countFrom t q 0 (t.length + 1)

/-- The number of ALL positions where `q` occurs in `t`, overlapping ones
included.  This follows the spec's words ("possibly overlapping ...
occurrences"), for comparison against the code's `str.count`. -/
def specOverlapCount (t q : Str) : Nat :=
  (List.range (t.length + 1)).countP (occursAt t q)

/-- The `"..."` marker glued around every snippet. -/
def ellipsis : Str := ['.', '.', '.']

/-- One emitted search snippet
(`{'snippet': ..., 'highlight_pos': ..., 'highlight_len': ...}`). -/
structure Snip where
  snippet : Str
  highlight_pos : Nat
  highlight_len : Nat
deriving DecidableEq

/-- The snippet built around the occurrence of `q` at position `pos` of `t`
(`app.py` lines 105-116): `start = max(0, pos - 50)`,
`stop = min(len(t), pos + len(q) + 50)`, snippet `"..." + t[start:stop] + "..."`,
`highlight_start = max(0, pos - start)`.  `Nat` subtraction renders Python's
`max(0, ...)`. -/
def mkSnip (t q : Str) (pos : Nat) : Snip :=
  let start := pos - 50
  let stop := min t.length (pos + q.length + 50)
  { snippet := ellipsis ++ ((t.drop start).take (stop - start)) ++ ellipsis
    highlight_pos := pos - start
    highlight_len := q.length }

/-- The snippet loop (`for _ in range(3)` at `app.py` lines 100-118):
find the next occurrence from the cursor `last_pos`, emit its snippet, and
advance the cursor past the end of the occurrence. -/
def snippetsAux (t q : Str) : Nat → Nat → List Snip
  | 0, _ => []
  | n + 1, last_pos =>
    match findFrom t q last_pos with
    | none => []
    | some pos => mkSnip t q pos :: snippetsAux t q n (pos + q.length)

/-- The positions the snippet loop visits (same recursion as `snippetsAux`,
returning the found positions instead of the built snippets). -/
def snippetPositions (t q : Str) : Nat → Nat → List Nat
  | 0, _ => []
  | n + 1, last_pos =>
    match findFrom t q last_pos with
    | none => []
    | some pos => pos :: snippetPositions t q n (pos + q.length)

/-- A persisted transcript record, with the fields of `transcript_data`
that the modelled operations observe (`segments` and the YouTube metadata
are never read by search, delete or the batch report and are omitted). -/
structure TranscriptData where
  id : String
  title : String
  topic : String
  original_filename : String
  date : String
  filepath : String
  transcript : Str
deriving DecidableEq

/-- The content of one stored `<id>.json` file: well-formed, well-formed
JSON missing the `transcript` key, or unparseable JSON. -/
inductive StoredFile where
  /-- Parsing (`json.load`) succeeds and every accessed key is present. -/
  | good (data : TranscriptData)
  /-- Parsing succeeds but the file has no `transcript` key, so
  `data['transcript']` raises `KeyError`. -/
  | noText
  /-- Parsing raises (`json.load` on an unparseable file). -/
  | malformed
deriving DecidableEq

/-- One entry of the `/search` response list. -/
structure SearchResult where
  id : String
  title : String
  date : String
  matches' : List Snip
  match_count : Nat
deriving DecidableEq

/-- The per-record body of the search scan (`app.py` lines 92-127): lower
the transcript, keep the record iff the query occurs in it, emitting up to
3 snippets and the total `str.count`. -/
def scan_record (query : Str) (data : TranscriptData) : Option SearchResult :=
  let transcript_text := lowerStr data.transcript
  if containsSub transcript_text query then
    let matches' := snippetsAux transcript_text query 3 0
    if matches'.isEmpty then none
    else some
      { id := data.id
        title := data.title
        date := data.date
        matches' := matches'
        match_count := countSub transcript_text query }
  else none

/-- The scan over all stored `.json` files.  A file that is malformed or
lacks the `transcript` key raises (there is no `try` in the handler), which
aborts the whole request: modelled by `Except.error`. -/
def scan_files (files : List StoredFile) (query : Str) :
    Except String (List SearchResult) :=
  match files with
  | [] => .ok []
  | .malformed :: _ => .error "json.decoder.JSONDecodeError"
  | .noText :: _ => .error "KeyError: transcript"
  | .good data :: rest =>
    (scan_files rest query).map fun results =>
      match scan_record query data with
      | some r => r :: results
      | none => results

/-- Stable insertion of `x` behind every already-placed result with a
strictly greater `match_count`. -/
def insertDesc (x : SearchResult) : List SearchResult → List SearchResult
  | [] => [x]
  | y :: ys =>
    if x.match_count < y.match_count then y :: insertDesc x ys
    else x :: y :: ys

/-- Python `results.sort(key=lambda x: x['match_count'], reverse=True)`:
a stable sort, descending on `match_count` (insertion sort realises the
documented stable-sort semantics of `list.sort`). -/
def sortByCountDesc : List SearchResult → List SearchResult
  | [] => []
  | x :: xs => insertDesc x (sortByCountDesc xs)

/-- The `/search` handler (`app.py` lines 81-132): lower the query, return
`[]` outright for queries shorter than 2 characters, otherwise scan every
stored file, sort the hits by `match_count` descending (stable) and keep
the first 10. -/
def search_transcripts (files : List StoredFile) (rawQuery : Str) :
    Except String (List SearchResult) :=
  let query := lowerStr rawQuery
  if query.isEmpty || query.length < 2 then .ok []
  else
    (scan_files files query).map fun results =>
      (sortByCountDesc results).take 10

/-- The text window of a snippet: the slice `t[start:stop]`, without the
glued ellipsis markers. -/
def window (t q : Str) (p : Nat) : Str :=
  (t.drop (p - 50)).take (min t.length (p + q.length + 50) - (p - 50))


/-! ### The `/delete/<id>` route (`app.py` lines 41-65) -/

/-- The transcript folder: the `<id>.json` record files (with their parsed
content) and the set of ids having a derived `<id>.txt` export. -/
structure TStore where
  jsonFiles : List (String × StoredFile)
  txtFiles : List String
deriving DecidableEq

/-- The read path: what `open(f"{id}.json")` + `json.load` observes. -/
def getJson (st : TStore) (tid : String) : Option StoredFile :=
  (st.jsonFiles.find? (fun f => f.1 == tid)).map (fun f => f.2)

def removeJson (st : TStore) (tid : String) : TStore :=
  { st with jsonFiles := st.jsonFiles.filter (fun f => f.1 != tid) }

/-- Existence check `os.path.exists(text_path)`. -/
def hasTxt (st : TStore) (tid : String) : Bool :=
  st.txtFiles.contains tid

def removeTxt (st : TStore) (tid : String) : TStore :=
  { st with txtFiles := st.txtFiles.filter (fun f => f != tid) }

/-- The three responses of `delete_transcript`: `{'success': True}`,
404 `Transcript not found`, and the 500 handler of the `except` clause. -/
inductive DeleteResult where
  | success
  | notFound
  | error (msg : String)
deriving DecidableEq

/-- Fault injection for the two `os.remove` calls: whether each raises
`OSError` when attempted. -/
structure DeleteFaults where
  removeJsonFails : Bool
  removeTxtFails : Bool
deriving DecidableEq

/-- Handler `delete_transcript` (`app.py` lines 41-65): 404 when `<id>.json` is
absent; otherwise, inside `try`: `json.load` the record, `os.remove` the
json file, and `os.remove` the txt file when it exists; any raise is
answered with a 500 error carrying the exception text, leaving whatever
has already been removed removed. -/
def delete_transcript (st : TStore) (tid : String) (f : DeleteFaults) :
    DeleteResult × TStore :=
  match getJson st tid with
  | none => (.notFound, st)
  | some content =>
    if content = .malformed then (.error "json.decoder.JSONDecodeError", st)
    else if f.removeJsonFails then (.error "OSError", st)
    else if hasTxt (removeJson st tid) tid then
      if f.removeTxtFails then (.error "OSError", removeJson st tid)
      else (.success, removeTxt (removeJson st tid) tid)
    else (.success, removeJson st tid)

/-! ### The `/transcribe` route, file-upload branch (`app.py` 134-143,
260-319) -/

/-- One entry of `request.files.getlist('file')`: the client-sent filename,
its extension (`os.path.splitext`), and the outcome of the downstream
`model.transcribe` call on the saved file — the transcription producer is
an external black box, so its per-item verdict is data of the model. -/
structure UploadItem where
  filename : String
  ext : String
  transcription : Except String String

/-- One element of the JSON list answered by `/transcribe`. -/
inductive Outcome where
  | success (id title : String)
  | failure (filename error : String)
deriving DecidableEq

/-- The application state the `/transcribe` route touches: the upload
folder (filename, is-regular-file flag) and the transcript folder. -/
structure AppState where
  uploads : List (String × Bool)
  transcripts : List (String × StoredFile)
deriving DecidableEq

def uploadDir : String := "static/uploads/"

/-- The `for file in files:` loop of the upload branch: items with an empty
filename are skipped by `continue`; every other item is saved into the
upload folder under `f"{uuid4()}{ext}"`, transcribed, and answered with a
per-item success (writing the record) or failure (writing nothing); `gen`
is the uuid4 supply, `n` its counter, `now` the request timestamp,
`formTitle`/`formTopic` the optional shared form metadata. -/
def processItems (gen : Nat → String) (now : String)
    (formTitle : Option String) (formTopic : String) :
    List UploadItem → Nat → AppState → List Outcome × AppState × Nat
  | [], n, st => ([], st, n)
  | item :: rest, n, st =>
    if item.filename = "" then processItems gen now formTitle formTopic rest n st
    else
      let file_id := gen n
      let filename := file_id ++ item.ext
      let st1 : AppState :=
        { st with uploads := st.uploads ++ [(filename, true)] }
      let title := formTitle.getD item.filename
      match item.transcription with
      | .ok text =>
        let data : TranscriptData :=
          { id := file_id, title := title, topic := formTopic
            original_filename := item.filename, date := now
            filepath := uploadDir ++ filename, transcript := text.toList }
        let st2 : AppState :=
          { st1 with transcripts := st1.transcripts ++ [(file_id, .good data)] }
        let next := processItems gen now formTitle formTopic rest (n + 1) st2
        (.success file_id title :: next.1, next.2)
      | .error e =>
        let next := processItems gen now formTitle formTopic rest (n + 1) st1
        (.failure item.filename e :: next.1, next.2)

/-- Route `/transcribe` (file-upload branch): first the clean-up loop deletes
every regular file of the upload folder (`os.path.isfile` + `os.unlink`,
`app.py` lines 136-143), then the items are processed. -/
def transcribe (gen : Nat → String) (now : String) (formTitle : Option String)
    (formTopic : String) (items : List UploadItem) (n : Nat) (st : AppState) :
    List Outcome × AppState × Nat :=
  processItems gen now formTitle formTopic items n
    { st with uploads := st.uploads.filter (fun f => !f.2) }

/-- The upload-folder files this request saves (one per item with a
nonempty filename). -/
def savedFiles (gen : Nat → String) : List UploadItem → Nat → List (String × Bool)
  | [], _ => []
  | item :: rest, n =>
    if item.filename = "" then savedFiles gen rest n
    else (gen n ++ item.ext, true) :: savedFiles gen rest (n + 1)

/-- The transcript-folder entries this request writes: one record per item
with a nonempty filename whose transcription succeeded. -/
def newRecords (gen : Nat → String) (now : String) (formTitle : Option String)
    (formTopic : String) : List UploadItem → Nat → List (String × StoredFile)
  | [], _ => []
  | item :: rest, n =>
    if item.filename = "" then newRecords gen now formTitle formTopic rest n
    else
      match item.transcription with
      | .ok text =>
        (gen n, .good { id := gen n
                        title := formTitle.getD item.filename
                        topic := formTopic
                        original_filename := item.filename
                        date := now
                        filepath := uploadDir ++ (gen n ++ item.ext)
                        transcript := text.toList }) ::
          newRecords gen now formTitle formTopic rest (n + 1)
      | .error _ => newRecords gen now formTitle formTopic rest (n + 1)

/-! ### Basic lemmas about the string primitives -/

theorem lowerStr_length (s : Str) : (lowerStr s).length = s.length :=
  List.length_map ..

theorem occursAt_true_iff {t q : Str} {i : Nat} :
    occursAt t q i = true ↔ (t.drop i).take q.length = q := by
  simp [occursAt]

theorem occursAt_length_le {t q : Str} {i : Nat}
    (h : occursAt t q i = true) (hq : q ≠ []) : i + q.length ≤ t.length := by
  rw [occursAt_true_iff] at h
  have hi : i ≤ t.length := by
    by_contra hi
    have hd : t.drop i = [] := List.drop_eq_nil_of_le (by omega)
    rw [hd, List.take_nil] at h
    exact hq h.symm
  have hlen := congrArg List.length h
  simp only [List.length_take, List.length_drop] at hlen
  omega

theorem findFromAux_some {t q : Str} :
    ∀ {fuel i p : Nat}, findFromAux t q fuel i = some p →
      i ≤ p ∧ p ≤ t.length ∧ occursAt t q p = true ∧
        ∀ j, i ≤ j → j < p → occursAt t q j = false
  | 0, _, _, h => by simp [findFromAux] at h
  | fuel + 1, i, p, h => by
    rw [findFromAux] at h
    by_cases hi : i ≤ t.length
    · rw [if_pos hi] at h
      by_cases ho : occursAt t q i = true
      · rw [if_pos ho] at h
        cases h
        exact ⟨Nat.le_refl _, hi, ho, fun j hj hj' => absurd hj' (by omega)⟩
      · rw [if_neg ho] at h
        obtain ⟨h1, h2, h3, h4⟩ := findFromAux_some h
        refine ⟨by omega, h2, h3, fun j hj hj' => ?_⟩
        rcases Nat.eq_or_lt_of_le hj with rfl | hj
        · exact Bool.eq_false_iff.mpr ho
        · exact h4 j hj hj'
    · rw [if_neg hi] at h
      cases h

theorem findFromAux_none {t q : Str} :
    ∀ {fuel i : Nat}, t.length + 1 - i ≤ fuel → findFromAux t q fuel i = none →
      ∀ j, i ≤ j → j ≤ t.length → occursAt t q j = false
  | 0, i, hf, _, j, hj, hj' => by omega
  | fuel + 1, i, hf, h, j, hj, hj' => by
    rw [findFromAux] at h
    have hi : i ≤ t.length := by omega
    rw [if_pos hi] at h
    by_cases ho : occursAt t q i = true
    · rw [if_pos ho] at h; cases h
    · rw [if_neg ho] at h
      rcases Nat.eq_or_lt_of_le hj with rfl | hj
      · exact Bool.eq_false_iff.mpr ho
      · exact findFromAux_none (by omega) h j hj hj'

theorem findFrom_some {t q : Str} {i p : Nat} (h : findFrom t q i = some p) :
    i ≤ p ∧ p ≤ t.length ∧ occursAt t q p = true ∧
      ∀ j, i ≤ j → j < p → occursAt t q j = false :=
  findFromAux_some h

theorem findFrom_none {t q : Str} {i : Nat} (h : findFrom t q i = none) :
    ∀ j, i ≤ j → j ≤ t.length → occursAt t q j = false :=
  findFromAux_none (Nat.le_refl _) h

theorem findFrom_isSome {t q : Str} {i j : Nat} (hij : i ≤ j)
    (hj : j ≤ t.length) (ho : occursAt t q j = true) :
    (findFrom t q i).isSome := by
  cases hf : findFrom t q i with
  | none => exact absurd (findFrom_none hf j hij hj) (by simp [ho])
  | some p => rfl

theorem containsSub_iff {t q : Str} :
    containsSub t q = true ↔ ∃ j, j ≤ t.length ∧ occursAt t q j = true := by
  simp only [containsSub, List.any_eq_true, List.mem_range]
  constructor
  · rintro ⟨j, hj, ho⟩; exact ⟨j, by omega, ho⟩
  · rintro ⟨j, hj, ho⟩; exact ⟨j, by omega, ho⟩

/-! ### Lemmas about the snippet loop -/

theorem snippetsAux_eq_map (t q : Str) :
    ∀ n i, snippetsAux t q n i = (snippetPositions t q n i).map (mkSnip t q)
  | 0, _ => rfl
  | n + 1, i => by
    rw [snippetsAux, snippetPositions]
    cases findFrom t q i with
    | none => rfl
    | some pos =>
      exact congrArg (List.cons (mkSnip t q pos)) (snippetsAux_eq_map t q n _)

theorem snippetPositions_length_le (t q : Str) :
    ∀ n i, (snippetPositions t q n i).length ≤ n
  | 0, _ => Nat.le_refl _
  | n + 1, i => by
    rw [snippetPositions]
    cases findFrom t q i with
    | none => simp
    | some pos =>
      simpa using Nat.succ_le_succ (snippetPositions_length_le t q n _)

theorem snippetPositions_mem (t q : Str) :
    ∀ n i, ∀ p ∈ snippetPositions t q n i,
      i ≤ p ∧ p ≤ t.length ∧ occursAt t q p = true
  | 0, _, p, hp => by simp [snippetPositions] at hp
  | n + 1, i, p, hp => by
    rw [snippetPositions] at hp
    cases hf : findFrom t q i with
    | none => rw [hf] at hp; simp at hp
    | some pos =>
      rw [hf] at hp
      obtain ⟨h1, h2, h3, -⟩ := findFrom_some hf
      rcases List.mem_cons.mp hp with rfl | hp
      · exact ⟨h1, h2, h3⟩
      · obtain ⟨h4, h5, h6⟩ := snippetPositions_mem t q n _ p hp
        exact ⟨by omega, h5, h6⟩

/-- Consecutive snippet positions do not overlap: each is past the end of
the previous occurrence. -/
theorem snippetPositions_chain (t q : Str) :
    ∀ n i, List.Chain' (fun a b => a + q.length ≤ b) (snippetPositions t q n i)
  | 0, _ => List.chain'_nil
  | n + 1, i => by
    rw [snippetPositions]
    cases hf : findFrom t q i with
    | none => exact List.chain'_nil
    | some pos =>
      refine List.chain'_cons'.mpr ⟨fun y hy => ?_, snippetPositions_chain t q n _⟩
      exact (snippetPositions_mem t q n _ y (List.mem_of_mem_head? hy)).1

/-- No occurrence is skipped between consecutive snippet positions. -/
theorem snippetPositions_chain_between (t q : Str) :
    ∀ n i, List.Chain' (fun a b => ∀ j, a + q.length ≤ j → j < b →
      occursAt t q j = false) (snippetPositions t q n i)
  | 0, _ => List.chain'_nil
  | n + 1, i => by
    rw [snippetPositions]
    cases hf : findFrom t q i with
    | none => exact List.chain'_nil
    | some pos =>
      refine List.chain'_cons'.mpr
        ⟨fun y hy => ?_, snippetPositions_chain_between t q n _⟩
      cases n with
      | zero => simp [snippetPositions] at hy
      | succ m =>
        rw [snippetPositions] at hy
        cases hf' : findFrom t q (pos + q.length) with
        | none => rw [hf'] at hy; simp at hy
        | some pos' =>
          rw [hf'] at hy
          simp only [List.head?_cons, Option.mem_def, Option.some.injEq] at hy
          subst hy
          exact (findFrom_some hf').2.2.2

theorem mkSnip_snippet (t q : Str) (p : Nat) :
    (mkSnip t q p).snippet = ellipsis ++ window t q p ++ ellipsis := rfl

theorem mkSnip_highlight_len (t q : Str) (p : Nat) :
    (mkSnip t q p).highlight_len = q.length := rfl

theorem mkSnip_highlight_pos (t q : Str) (p : Nat) :
    (mkSnip t q p).highlight_pos = p - (p - 50) := rfl

theorem window_length {t q : Str} {p : Nat} (h : occursAt t q p = true)
    (hq : q ≠ []) :
    (window t q p).length = min t.length (p + q.length + 50) - (p - 50) := by
  have := occursAt_length_le h hq
  simp only [window, List.length_take, List.length_drop]
  omega

theorem mkSnip_bounds {t q : Str} {p : Nat} (h : occursAt t q p = true)
    (hq : q ≠ []) :
    (mkSnip t q p).highlight_pos + (mkSnip t q p).highlight_len ≤
        (window t q p).length ∧
      (mkSnip t q p).snippet.length = (window t q p).length + 6 := by
  have hpl := occursAt_length_le h hq
  rw [mkSnip_highlight_pos, mkSnip_highlight_len, window_length h hq,
    mkSnip_snippet]
  constructor
  · omega
  · simp only [List.length_append, ellipsis, List.length_cons,
      List.length_nil, window_length h hq]
    omega

theorem mkSnip_match_in_window {t q : Str} {p : Nat}
    (h : occursAt t q p = true) (hq : q ≠ []) :
    ((window t q p).drop ((mkSnip t q p).highlight_pos)).take q.length = q := by
  have hpl := occursAt_length_le h hq
  rw [mkSnip_highlight_pos, window, List.drop_take, List.drop_drop]
  have h1 : p - 50 + (p - (p - 50)) = p := by omega
  have h2 : q.length ≤ min t.length (p + q.length + 50) - (p - 50) - (p - (p - 50)) := by
    omega
  rw [h1, List.take_take, Nat.min_eq_left h2]
  exact occursAt_true_iff.mp h

theorem mkSnip_match_in_snippet {t q : Str} {p : Nat}
    (h : occursAt t q p = true) (hq : q ≠ []) :
    ((mkSnip t q p).snippet.drop ((mkSnip t q p).highlight_pos + 3)).take
      q.length = q := by
  have hb := (mkSnip_bounds h hq).1
  rw [mkSnip_snippet, List.append_assoc]
  have h3 : (mkSnip t q p).highlight_pos + 3 =
      ellipsis.length + (mkSnip t q p).highlight_pos := by
    simp [ellipsis]; omega
  rw [h3, List.drop_append, List.drop_append_eq_append_drop]
  have h4 : q.length ≤ ((window t q p).drop ((mkSnip t q p).highlight_pos)).length := by
    rw [List.length_drop]
    rw [mkSnip_highlight_len] at hb
    omega
  rw [List.take_append_of_le_length h4]
  exact mkSnip_match_in_window h hq

theorem snippetPositions_head {t q : Str} {n i p : Nat} {ps : List Nat}
    (h : snippetPositions t q (n + 1) i = p :: ps) :
    i ≤ p ∧ ∀ j, i ≤ j → j < p → occursAt t q j = false := by
  rw [snippetPositions] at h
  cases hf : findFrom t q i with
  | none => rw [hf] at h; cases h
  | some pos =>
    rw [hf] at h
    obtain ⟨h1, -, -, h4⟩ := findFrom_some hf
    cases h
    exact ⟨h1, h4⟩

theorem snippetPositions_nil_iff {t q : Str} {n i : Nat} :
    snippetPositions t q (n + 1) i = [] ↔ findFrom t q i = none := by
  rw [snippetPositions]
  cases findFrom t q i <;> simp

theorem containsSub_iff_findFrom {t q : Str} :
    containsSub t q = true ↔ (findFrom t q 0).isSome := by
  rw [containsSub_iff]
  constructor
  · rintro ⟨j, hj, ho⟩; exact findFrom_isSome (Nat.zero_le _) hj ho
  · intro h
    cases hf : findFrom t q 0 with
    | none => rw [hf] at h; simp at h
    | some p =>
      obtain ⟨-, h2, h3, -⟩ := findFrom_some hf
      exact ⟨p, h2, h3⟩


/-! ### Lemmas about the per-record scan and the result pipeline -/

/-- A record enters the result set iff the lowered query occurs in its
lowered transcript (when the query occurs, the snippet loop necessarily
emits at least one snippet, so the `if matches` guard passes). -/
theorem scan_record_isSome_iff {query : Str} {data : TranscriptData} :
    (scan_record query data).isSome = true ↔
      containsSub (lowerStr data.transcript) query = true := by
  unfold scan_record
  by_cases hc : containsSub (lowerStr data.transcript) query = true
  · simp only [hc, if_true, iff_true]
    obtain ⟨p, hf⟩ := Option.isSome_iff_exists.mp
      (containsSub_iff_findFrom.mp hc)
    have : snippetsAux (lowerStr data.transcript) query 3 0 =
        mkSnip (lowerStr data.transcript) query p ::
          snippetsAux (lowerStr data.transcript) query 2 (p + query.length) := by
      rw [snippetsAux, hf]
    rw [this]
    simp
  · simp [hc]

theorem scan_files_map_good (store : List TranscriptData) (query : Str) :
    scan_files (store.map .good) query =
      .ok (store.filterMap (scan_record query)) := by
  induction store with
  | nil => rfl
  | cons data rest ih =>
    rw [List.map_cons, scan_files, ih, List.filterMap_cons]
    cases scan_record query data <;> rfl

theorem mem_insertDesc {x y : SearchResult} {l : List SearchResult} :
    y ∈ insertDesc x l ↔ y = x ∨ y ∈ l := by
  induction l with
  | nil => simp [insertDesc]
  | cons z zs ih =>
    rw [insertDesc]
    by_cases h : x.match_count < z.match_count
    · rw [if_pos h]
      rw [List.mem_cons, ih, List.mem_cons]
      tauto
    · rw [if_neg h]
      rw [List.mem_cons, List.mem_cons]

theorem mem_sortByCountDesc {y : SearchResult} {l : List SearchResult} :
    y ∈ sortByCountDesc l ↔ y ∈ l := by
  induction l with
  | nil => simp [sortByCountDesc]
  | cons x xs ih =>
    rw [sortByCountDesc, mem_insertDesc, ih, List.mem_cons]

theorem insertDesc_sorted {x : SearchResult} {l : List SearchResult}
    (h : List.Pairwise (fun a b => b.match_count ≤ a.match_count) l) :
    List.Pairwise (fun a b => b.match_count ≤ a.match_count)
      (insertDesc x l) := by
  induction l with
  | nil => simp [insertDesc]
  | cons y ys ih =>
    rw [List.pairwise_cons] at h
    rw [insertDesc]
    by_cases hxy : x.match_count < y.match_count
    · rw [if_pos hxy, List.pairwise_cons]
      refine ⟨fun z hz => ?_, ih h.2⟩
      rcases mem_insertDesc.mp hz with rfl | hz
      · omega
      · exact h.1 z hz
    · rw [if_neg hxy, List.pairwise_cons]
      refine ⟨fun z hz => ?_, List.pairwise_cons.mpr h⟩
      rcases List.mem_cons.mp hz with rfl | hz
      · omega
      · have := h.1 z hz
        omega

theorem sortByCountDesc_sorted (l : List SearchResult) :
    List.Pairwise (fun a b => b.match_count ≤ a.match_count)
      (sortByCountDesc l) := by
  induction l with
  | nil => exact List.Pairwise.nil
  | cons x xs ih => exact insertDesc_sorted ih

/-- Stability of the insertion: results with any fixed `match_count` keep
their relative order (`x` is placed in front of every equal element). -/
theorem insertDesc_filter (x : SearchResult) (l : List SearchResult)
    (c : Nat) :
    (insertDesc x l).filter (fun r => r.match_count == c) =
      if x.match_count = c then
        x :: l.filter (fun r => r.match_count == c)
      else l.filter (fun r => r.match_count == c) := by
  induction l with
  | nil =>
    by_cases h : x.match_count = c
    · rw [if_pos h]
      exact List.filter_cons_of_pos (by simp [h])
    · rw [if_neg h]
      exact List.filter_cons_of_neg (by simp [h])
  | cons y ys ih =>
    rw [insertDesc]
    by_cases hxy : x.match_count < y.match_count
    · rw [if_pos hxy]
      by_cases hy : y.match_count = c
      · have hx : ¬ x.match_count = c := by omega
        rw [List.filter_cons_of_pos (by simp [hy]), ih, if_neg hx,
          if_neg hx, List.filter_cons_of_pos (by simp [hy])]
      · rw [List.filter_cons_of_neg (by simp [hy]), ih,
          List.filter_cons_of_neg (by simp [hy])]
    · rw [if_neg hxy]
      by_cases hx : x.match_count = c
      · rw [List.filter_cons_of_pos (by simp [hx]), if_pos hx]
      · rw [List.filter_cons_of_neg (by simp [hx]), if_neg hx]

theorem sortByCountDesc_filter (l : List SearchResult) (c : Nat) :
    (sortByCountDesc l).filter (fun r => r.match_count == c) =
      l.filter (fun r => r.match_count == c) := by
  induction l with
  | nil => rfl
  | cons x xs ih =>
    rw [sortByCountDesc, insertDesc_filter]
    by_cases hx : x.match_count = c
    · rw [if_pos hx, ih, List.filter_cons_of_pos (by simp [hx])]
    · rw [if_neg hx, ih, List.filter_cons_of_neg (by simp [hx])]

/-- Short queries short-circuit: the handler answers `[]` before opening
any stored file (so even a malformed store cannot make it fail). -/
theorem search_transcripts_short {q : Str} (files : List StoredFile)
    (h : q.length < 2) : search_transcripts files q = .ok [] := by
  unfold search_transcripts
  have hl : (lowerStr q).length < 2 := by rw [lowerStr_length]; exact h
  simp [hl]

/-- On a store of well-formed records with a query of length `≥ 2`, the
handler is exactly: scan each record, sort stably by `match_count`
descending, truncate to 10. -/
theorem search_transcripts_good (store : List TranscriptData) {q : Str}
    (h : 2 ≤ q.length) :
    search_transcripts (store.map .good) q =
      .ok ((sortByCountDesc (store.filterMap
        (scan_record (lowerStr q)))).take 10) := by
  unfold search_transcripts
  have hl : ¬ ((lowerStr q).length < 2) := by rw [lowerStr_length]; omega
  have hne : ¬ (lowerStr q).isEmpty = true := by
    rw [List.isEmpty_iff_length_eq_zero, lowerStr_length]
    omega
  rw [if_neg (by simp [hl, hne]), scan_files_map_good]
  rfl

/-! ### Lowercasing -/

theorem char_toLower_eq (c : Char) :
    c.toLower = if c.toNat ≥ 65 ∧ c.toNat ≤ 90 then Char.ofNat (c.toNat + 32)
      else c := rfl

theorem char_toNat_ofNat {n : Nat} (h : n.isValidChar) :
    (Char.ofNat n).toNat = n := by
  rw [Char.ofNat, dif_pos h]
  rfl

/-- Lowering is idempotent: lowering an upper-case ASCII letter lands
outside the upper-case range. -/
theorem char_toLower_toLower (c : Char) : c.toLower.toLower = c.toLower := by
  by_cases h : c.toNat ≥ 65 ∧ c.toNat ≤ 90
  · have h1 : c.toLower = Char.ofNat (c.toNat + 32) := by
      rw [char_toLower_eq, if_pos h]
    have hv : (c.toNat + 32).isValidChar := Or.inl (by omega)
    have ht : (Char.ofNat (c.toNat + 32)).toNat = c.toNat + 32 :=
      char_toNat_ofNat hv
    rw [h1, char_toLower_eq, ht, if_neg (by omega)]
  · have h1 : c.toLower = c := by rw [char_toLower_eq, if_neg h]
    rw [h1, h1]

theorem lowerStr_lowerStr (s : Str) : lowerStr (lowerStr s) = lowerStr s := by
  rw [lowerStr, lowerStr, List.map_map]
  exact List.map_congr_left fun c _ => char_toLower_toLower c

/-- Slices of a lowered text are already lower case. -/
theorem map_toLower_take_drop (t : Str) (a b : Nat) :
    (((lowerStr t).drop a).take b).map Char.toLower =
      ((lowerStr t).drop a).take b := by
  rw [List.map_take, List.map_drop]
  have : (lowerStr t).map Char.toLower = lowerStr t := lowerStr_lowerStr t
  rw [this]

/-! ### The occurrence count -/

/-- The count loop and the snippet-position loop walk the same cursor:
`countFrom` is the number of positions the loop visits. -/
theorem countFrom_eq_length (t q : Str) :
    ∀ fuel i, countFrom t q i fuel = (snippetPositions t q fuel i).length
  | 0, _ => rfl
  | fuel + 1, i => by
    rw [countFrom, snippetPositions]
    cases findFrom t q i with
    | none => rfl
    | some pos =>
      show 1 + countFrom t q (pos + q.length) fuel =
        (snippetPositions t q fuel (pos + q.length)).length + 1
      rw [countFrom_eq_length t q fuel]
      omega

theorem countSub_pos_iff {t q : Str} :
    0 < countSub t q ↔ containsSub t q = true := by
  unfold countSub
  rw [containsSub_iff_findFrom]
  cases hf : findFrom t q 0 with
  | none => simp [countFrom, hf]
  | some pos => simp [countFrom, hf]

/-- The code's count (Python `str.count`, non-overlapping) never exceeds
the count of all (overlapping included) occurrence positions. -/
theorem countSub_le_specOverlapCount {t q : Str} (hq : q ≠ []) :
    countSub t q ≤ specOverlapCount t q := by
  rw [countSub, countFrom_eq_length, specOverlapCount,
    List.countP_eq_length_filter]
  have hsub : snippetPositions t q (t.length + 1) 0 ⊆
      (List.range (t.length + 1)).filter (occursAt t q) := by
    intro p hp
    obtain ⟨-, h2, h3⟩ := snippetPositions_mem t q _ _ p hp
    rw [List.mem_filter, List.mem_range]
    exact ⟨by omega, h3⟩
  have hnd : (snippetPositions t q (t.length + 1) 0).Nodup := by
    have hch := snippetPositions_chain t q (t.length + 1) 0
    have hlt : List.Chain' (· < ·) (snippetPositions t q (t.length + 1) 0) := by
      refine List.Chain'.imp ?_ hch
      intro a b hab
      have : 0 < q.length := List.length_pos.mpr hq
      omega
    exact (List.chain'_iff_pairwise.mp hlt).nodup
  exact (List.subperm_of_subset hnd hsub).length_le

theorem getJson_removeJson (st : TStore) (tid : String) :
    getJson (removeJson st tid) tid = none := by
  rw [getJson, removeJson]
  have : (st.jsonFiles.filter (fun f => f.1 != tid)).find?
      (fun f => f.1 == tid) = none := by
    rw [List.find?_eq_none]
    intro f hf
    have := (List.mem_filter.mp hf).2
    simp only [bne_iff_ne, ne_eq] at this
    simp [this]
  rw [this]
  rfl

theorem hasTxt_removeTxt (st : TStore) (tid : String) :
    hasTxt (removeTxt st tid) tid = false := by
  rw [hasTxt, removeTxt]
  rw [Bool.eq_false_iff]
  intro hc
  have hmem : tid ∈ st.txtFiles.filter (fun f => f != tid) :=
    List.elem_iff.mp hc
  have := (List.mem_filter.mp hmem).2
  simp at this

theorem hasTxt_removeJson (st : TStore) (tid : String) :
    hasTxt (removeJson st tid) tid = hasTxt st tid := rfl

theorem getJson_removeTxt (st : TStore) (tid tid' : String) :
    getJson (removeTxt st tid) tid' = getJson st tid' := rfl

theorem processItems_uploads (gen : Nat → String) (now : String)
    (formTitle : Option String) (formTopic : String) :
    ∀ (items : List UploadItem) (n : Nat) (st : AppState),
      (processItems gen now formTitle formTopic items n st).2.1.uploads =
        st.uploads ++ savedFiles gen items n
  | [], n, st => by simp [processItems, savedFiles]
  | item :: rest, n, st => by
    rw [processItems, savedFiles]
    by_cases h : item.filename = ""
    · rw [if_pos h, if_pos h]
      exact processItems_uploads gen now formTitle formTopic rest n st
    · rw [if_neg h, if_neg h]
      cases item.transcription with
      | ok text =>
        show (processItems gen now formTitle formTopic rest (n + 1) _).2.1.uploads = _
        rw [processItems_uploads gen now formTitle formTopic rest (n + 1)]
        simp
      | error e =>
        show (processItems gen now formTitle formTopic rest (n + 1) _).2.1.uploads = _
        rw [processItems_uploads gen now formTitle formTopic rest (n + 1)]
        simp

theorem processItems_transcripts (gen : Nat → String) (now : String)
    (formTitle : Option String) (formTopic : String) :
    ∀ (items : List UploadItem) (n : Nat) (st : AppState),
      (processItems gen now formTitle formTopic items n st).2.1.transcripts =
        st.transcripts ++ newRecords gen now formTitle formTopic items n
  | [], n, st => by simp [processItems, newRecords]
  | item :: rest, n, st => by
    rw [processItems, newRecords]
    by_cases h : item.filename = ""
    · rw [if_pos h, if_pos h]
      exact processItems_transcripts gen now formTitle formTopic rest n st
    · rw [if_neg h, if_neg h]
      cases item.transcription with
      | ok text =>
        show (processItems gen now formTitle formTopic rest (n + 1) _).2.1.transcripts = _
        rw [processItems_transcripts gen now formTitle formTopic rest (n + 1)]
        simp
      | error e =>
        show (processItems gen now formTitle formTopic rest (n + 1) _).2.1.transcripts = _
        rw [processItems_transcripts gen now formTitle formTopic rest (n + 1)]

theorem processItems_transcripts_length (gen : Nat → String) (now : String)
    (formTitle : Option String) (formTopic : String) :
    ∀ (items : List UploadItem) (n : Nat) (st : AppState),
      (processItems gen now formTitle formTopic items n st).2.1.transcripts.length =
        st.transcripts.length +
          (items.filter (fun i => i.filename != "" && i.transcription.isOk)).length
  | [], n, st => by simp [processItems]
  | item :: rest, n, st => by
    rw [processItems]
    by_cases h : item.filename = ""
    · rw [if_pos h, List.filter_cons_of_neg (by simp [h])]
      exact processItems_transcripts_length gen now formTitle formTopic rest n st
    · rw [if_neg h]
      cases ht : item.transcription with
      | ok text =>
        rw [List.filter_cons_of_pos (by simp [h, ht, Except.isOk, Except.toBool])]
        show (processItems gen now formTitle formTopic rest (n + 1) _).2.1.transcripts.length = _
        rw [processItems_transcripts_length gen now formTitle formTopic rest (n + 1)]
        simp only [List.length_append, List.length_cons, List.length_nil]
        omega
      | error e =>
        rw [List.filter_cons_of_neg (by simp [h, ht, Except.isOk, Except.toBool])]
        show (processItems gen now formTitle formTopic rest (n + 1) _).2.1.transcripts.length = _
        exact processItems_transcripts_length gen now formTitle formTopic rest (n + 1) _

theorem processItems_outcomes (gen : Nat → String) (now : String)
    (formTitle : Option String) (formTopic : String) :
    ∀ (items : List UploadItem) (n : Nat) (st : AppState),
      List.Forall₂ (fun (item : UploadItem) (o : Outcome) =>
          match item.transcription with
          | .ok _ => ∃ k, o = .success (gen k) (formTitle.getD item.filename)
          | .error e => o = .failure item.filename e)
        (items.filter (fun i => i.filename != ""))
        (processItems gen now formTitle formTopic items n st).1
  | [], n, st => by simp [processItems]
  | item :: rest, n, st => by
    rw [processItems]
    by_cases h : item.filename = ""
    · rw [if_pos h, List.filter_cons_of_neg (by simp [h])]
      exact processItems_outcomes gen now formTitle formTopic rest n st
    · rw [if_neg h, List.filter_cons_of_pos (by simp [h])]
      cases ht : item.transcription with
      | ok text =>
        refine List.Forall₂.cons ?_
          (processItems_outcomes gen now formTitle formTopic rest (n + 1) _)
        rw [ht]
        exact ⟨n, rfl⟩
      | error e =>
        refine List.Forall₂.cons ?_
          (processItems_outcomes gen now formTitle formTopic rest (n + 1) _)
        rw [ht]

theorem processItems_outcomes_length (gen : Nat → String) (now : String)
    (formTitle : Option String) (formTopic : String)
    (items : List UploadItem) (n : Nat) (st : AppState) :
    (processItems gen now formTitle formTopic items n st).1.length =
      (items.filter (fun i => i.filename != "")).length :=
  (List.Forall₂.length_eq
    (processItems_outcomes gen now formTitle formTopic items n st)).symm

/-! ### Tracing a search result back to its record -/

theorem scan_record_eq {query : Str} {data : TranscriptData}
    {r : SearchResult} (h : scan_record query data = some r) :
    r = { id := data.id, title := data.title, date := data.date
          matches' := snippetsAux (lowerStr data.transcript) query 3 0
          match_count := countSub (lowerStr data.transcript) query } := by
  unfold scan_record at h
  by_cases hc : containsSub (lowerStr data.transcript) query = true
  · rw [if_pos hc] at h
    by_cases he : (snippetsAux (lowerStr data.transcript) query 3 0).isEmpty
    · rw [if_pos he] at h
      cases h
    · rw [if_neg he] at h
      exact (Option.some.injEq _ _).mp h.symm
  · rw [if_neg hc] at h
    cases h

theorem search_result_from_record {store : List TranscriptData} {q : Str}
    {res : List SearchResult} (h2 : 2 ≤ q.length)
    (h : search_transcripts (store.map .good) q = .ok res) :
    ∀ r ∈ res, ∃ data ∈ store, scan_record (lowerStr q) data = some r := by
  intro r hr
  rw [search_transcripts_good store h2] at h
  have hres : res = (sortByCountDesc
      (store.filterMap (scan_record (lowerStr q)))).take 10 :=
    ((Except.ok.injEq _ _).mp h).symm
  rw [hres] at hr
  have hr2 := mem_sortByCountDesc.mp (List.take_subset _ _ hr)
  exact List.mem_filterMap.mp hr2

/-- Every snippet of every emitted result is built by `mkSnip` around an
actual occurrence position of the lowered query in the lowered text. -/
theorem search_result_snips {store : List TranscriptData} {q : Str}
    {res : List SearchResult} (h2 : 2 ≤ q.length)
    (h : search_transcripts (store.map .good) q = .ok res) :
    ∀ r ∈ res, ∀ m ∈ r.matches', ∃ data ∈ store, ∃ p,
      occursAt (lowerStr data.transcript) (lowerStr q) p = true ∧
      m = mkSnip (lowerStr data.transcript) (lowerStr q) p := by
  intro r hr m hm
  obtain ⟨data, hdata, hscan⟩ := search_result_from_record h2 h r hr
  rw [scan_record_eq hscan] at hm
  simp only at hm
  rw [snippetsAux_eq_map] at hm
  obtain ⟨p, hp, hmk⟩ := List.mem_map.mp hm
  exact ⟨data, hdata, p,
    (snippetPositions_mem _ _ _ _ p hp).2.2, hmk.symm⟩

/-! ## The claims -/

/-- C1: search result-set membership.  (i) For every store (even one holding
malformed files) and every query shorter than 2 characters, `/search`
answers the empty list immediately, without scanning any record.  (ii) For
every query of length at least 2, the handler builds its result set by
scanning every stored record, then sorts and truncates it; a record enters
that result set if and only if the lowercased `full_text` contains the
lowercased query as a substring. -/
theorem C1_search_membership :
    (∀ (files : List StoredFile) (q : Str), q.length < 2 →
      search_transcripts files q = .ok []) ∧
    (∀ (store : List TranscriptData) (q : Str), 2 ≤ q.length →
      search_transcripts (store.map .good) q =
        .ok ((sortByCountDesc (store.filterMap
          (scan_record (lowerStr q)))).take 10) ∧
      ∀ data ∈ store,
        ((scan_record (lowerStr q) data).isSome = true ↔
          containsSub (lowerStr data.transcript) (lowerStr q) = true)) :=
  ⟨fun files _ h => search_transcripts_short files h,
   fun store _ h =>
     ⟨search_transcripts_good store h, fun _ _ => scan_record_isSome_iff⟩⟩

theorem C1_search_membership_witness :
    search_transcripts [StoredFile.malformed] ['a'] = .ok [] ∧
    search_transcripts ([⟨"i","t","","o","d","p",['x','A','b']⟩].map .good)
        ['a','B'] =
      .ok ((sortByCountDesc ([(⟨"i","t","","o","d","p",['x','A','b']⟩ :
        TranscriptData)].filterMap (scan_record (lowerStr ['a','B'])))).take 10) :=
  ⟨C1_search_membership.1 [StoredFile.malformed] ['a'] (by decide),
   (C1_search_membership.2 [⟨"i","t","","o","d","p",['x','A','b']⟩]
     ['a','B'] (by decide)).1⟩

/-- C2 counterexample: the claim says `match_count` counts possibly
OVERLAPPING occurrences; Python's `str.count` (the code) counts
non-overlapping ones.  For one stored record with `full_text` `"aaaa"` and
query `"aa"`, the overlapping count is 3 but the code reports 2. -/
theorem C2_counterexample :
    ((search_transcripts [StoredFile.good ⟨"i","t","","o","d","p",
        "aaaa".toList⟩] "aa".toList).map
      (fun rs => rs.map SearchResult.match_count)) = .ok [2] ∧
    specOverlapCount (lowerStr "aaaa".toList) (lowerStr "aa".toList) = 3 :=
  ⟨rfl, by decide⟩

/-- C2 (amended): for every matching record, `match_count` is the total
number of NON-overlapping (greedy, left-to-right) occurrences of the
lowercased query in the lowercased `full_text` — never more than the
all-positions count; it is computed independently of the snippet list
(capped at 3) and may exceed it: a record whose text holds `"the"` exactly
5 times yields one result with `match_count = 5` and 3 snippets. -/
theorem C2_match_count :
    (∀ (q : Str) (data : TranscriptData) (r : SearchResult),
      scan_record q data = some r →
        r.match_count = countSub (lowerStr data.transcript) q ∧
        r.matches'.length ≤ 3) ∧
    (∀ t q : Str, q ≠ [] → countSub t q ≤ specOverlapCount t q) ∧
    (∀ t q : Str, 0 < countSub t q ↔ containsSub t q = true) ∧
    ((search_transcripts [StoredFile.good ⟨"i","t","","o","d","p",
        "the cat the dog the fox the hen the owl".toList⟩] "the".toList).map
      (fun rs => rs.map (fun r => (r.match_count, r.matches'.length))) =
        .ok [(5, 3)]) := by
  refine ⟨fun q data r h => ?_, fun t q hq => countSub_le_specOverlapCount hq,
    fun t q => countSub_pos_iff, rfl⟩
  rw [scan_record_eq h]
  refine ⟨rfl, ?_⟩
  rw [snippetsAux_eq_map, List.length_map]
  exact snippetPositions_length_le _ _ 3 0

theorem C2_match_count_witness :
    (⟨"i", "t", "d", [⟨['.','.','.','a','b','.','.','.'], 0, 2⟩], 1⟩ :
        SearchResult).match_count =
      countSub (lowerStr ['a','b']) ['a','b'] ∧
    ([⟨['.','.','.','a','b','.','.','.'], 0, 2⟩] : List Snip).length ≤ 3 :=
  C2_match_count.1 ['a','b'] ⟨"i","t","","o","d","p",['a','b']⟩ _ rfl

/-- C3 counterexample: the claim says the emitted offset accounts for the
ellipsis prefix, pointing at the match inside the emitted snippet string.
For the record `"Hello THE World"` and query `"the"` the code emits the
snippet `"...hello the world..."` with `highlight_pos = 6`; characters
6..8 of the emitted snippet are `"lo "`, not `"the"` — the match actually
begins at 6 + 3. -/
theorem C3_counterexample :
    search_transcripts [StoredFile.good ⟨"i","t","","o","d","p",
        "Hello THE World".toList⟩] "the".toList =
      .ok [⟨"i","t","d", [⟨"...hello the world...".toList, 6, 3⟩], 1⟩] ∧
    ¬ (("...hello the world...".toList.drop 6).take 3 = "the".toList) ∧
    (("...hello the world...".toList.drop (6 + 3)).take 3 = "the".toList) :=
  ⟨rfl, by decide, by decide⟩

/-- C3 (amended): the snippet loop locates up to 3 non-overlapping
occurrences left to right (each the lowest-position occurrence at or after
the cursor, the cursor advancing past the end of each found occurrence),
and for each emits the ellipsis-wrapped window of up to 50 characters
before and after the match together with the match length and the offset
of the match WITHIN THE WINDOW — the offset does not account for the
3-character ellipsis prefix, so inside the emitted snippet string the
match begins at `highlight_pos + 3`. -/
theorem C3_snippet_extraction :
    ∀ (t q : Str), q ≠ [] →
      snippetsAux t q 3 0 =
        (snippetPositions t q 3 0).map (mkSnip t q) ∧
      (snippetPositions t q 3 0).length ≤ 3 ∧
      (∀ p ∈ snippetPositions t q 3 0, occursAt t q p = true) ∧
      List.Chain' (fun a b => a + q.length ≤ b) (snippetPositions t q 3 0) ∧
      List.Chain' (fun a b => ∀ j, a + q.length ≤ j → j < b →
        occursAt t q j = false) (snippetPositions t q 3 0) ∧
      (∀ p ps', snippetPositions t q 3 0 = p :: ps' →
        ∀ j, j < p → occursAt t q j = false) ∧
      (∀ p ∈ snippetPositions t q 3 0,
        mkSnip t q p = ⟨ellipsis ++ ((t.drop (p - 50)).take
            (min t.length (p + q.length + 50) - (p - 50))) ++ ellipsis,
          p - (p - 50), q.length⟩) ∧
      (∀ p ∈ snippetPositions t q 3 0,
        (((mkSnip t q p).snippet).drop
          ((mkSnip t q p).highlight_pos + 3)).take q.length = q) := by
  intro t q hq
  refine ⟨snippetsAux_eq_map t q 3 0, snippetPositions_length_le t q 3 0,
    fun p hp => (snippetPositions_mem t q 3 0 p hp).2.2,
    snippetPositions_chain t q 3 0, snippetPositions_chain_between t q 3 0,
    fun p ps' hps j hj => ?_,
    fun p _ => rfl,
    fun p hp => mkSnip_match_in_snippet
      (snippetPositions_mem t q 3 0 p hp).2.2 hq⟩
  exact (snippetPositions_head hps).2 j (Nat.zero_le j) hj

theorem C3_snippet_extraction_witness :
    snippetsAux "xxabyy".toList "ab".toList 3 0 =
      (snippetPositions "xxabyy".toList "ab".toList 3 0).map
        (mkSnip "xxabyy".toList "ab".toList) ∧
    (snippetPositions "xxabyy".toList "ab".toList 3 0).length ≤ 3 :=
  ⟨(C3_snippet_extraction "xxabyy".toList "ab".toList (by decide)).1,
   (C3_snippet_extraction "xxabyy".toList "ab".toList (by decide)).2.1⟩

/-- Unfolding of the handler for queries of length at least 2, over any
store. -/
theorem search_transcripts_long (files : List StoredFile) {q : Str}
    (h : 2 ≤ q.length) :
    search_transcripts files q = (scan_files files (lowerStr q)).map
      (fun results => (sortByCountDesc results).take 10) := by
  unfold search_transcripts
  have hl : ¬ ((lowerStr q).length < 2) := by rw [lowerStr_length]; omega
  have hne : ¬ (lowerStr q).isEmpty = true := by
    rw [List.isEmpty_iff_length_eq_zero, lowerStr_length]
    omega
  rw [if_neg (by simp [hl, hne])]

/-- C4: for every store and query the returned list is sorted by
`match_count` descending, ties keep encounter order (the stable sort leaves
every equal-count fibre unchanged), and at most 10 entries are returned;
records with counts [2, 9, 4] come back ordered [9, 4, 2]. -/
theorem C4_sort_truncate :
    (∀ (store : List TranscriptData) (q : Str), 2 ≤ q.length →
      search_transcripts (store.map .good) q =
        .ok ((sortByCountDesc (store.filterMap
          (scan_record (lowerStr q)))).take 10)) ∧
    (∀ (files : List StoredFile) (q : Str) (res : List SearchResult),
      search_transcripts files q = .ok res → res.length ≤ 10) ∧
    (∀ l, List.Pairwise (fun a b => b.match_count ≤ a.match_count)
      (sortByCountDesc l)) ∧
    (∀ l c, (sortByCountDesc l).filter (fun r => r.match_count == c) =
      l.filter (fun r => r.match_count == c)) ∧
    ((search_transcripts ([⟨"r1","t1","","o","d","p","abab".toList⟩,
        ⟨"r2","t2","","o","d","p","ababababababababab".toList⟩,
        ⟨"r3","t3","","o","d","p","abababab".toList⟩].map .good)
      "ab".toList).map (fun rs => rs.map SearchResult.match_count) =
        .ok [9, 4, 2]) := by
  refine ⟨fun store q h => search_transcripts_good store h,
    fun files q res h => ?_, sortByCountDesc_sorted, sortByCountDesc_filter,
    rfl⟩
  by_cases hshort : q.length < 2
  · rw [search_transcripts_short files hshort] at h
    cases h
    simp
  · rw [search_transcripts_long files (by omega)] at h
    cases hsf : scan_files files (lowerStr q) with
    | error e => rw [hsf] at h; cases h
    | ok l =>
      rw [hsf] at h
      have : (sortByCountDesc l).take 10 = res :=
        (Except.ok.injEq _ _).mp h
      rw [← this, List.length_take]
      omega

theorem C4_sort_truncate_witness :
    ((search_transcripts [StoredFile.good ⟨"i","t","","o","d","p",
        ['a','b']⟩] ['a','b']).map (fun rs => rs.map SearchResult.id) =
      .ok ["i"]) ∧
    ([(⟨"i","t","d",[⟨['.','.','.','a','b','.','.','.'],0,2⟩],1⟩ :
      SearchResult)] : List SearchResult).length ≤ 10 :=
  ⟨rfl, C4_sort_truncate.2.1 [StoredFile.good ⟨"i","t","","o","d","p",
    ['a','b']⟩] ['a','b'] _ rfl⟩

/-- C5 counterexample: the claim says a malformed record is skipped
silently and the remaining records still produce results.  In the code
there is no `try` around the scan: with a store holding one good matching
record and one malformed file, the whole search fails, returning no result
at all — while the good record alone does match. -/
theorem C5_counterexample :
    (search_transcripts [StoredFile.good ⟨"i","t","","o","d","p",
        "abc".toList⟩, StoredFile.malformed] "ab".toList).isOk = false ∧
    ((search_transcripts [StoredFile.good ⟨"i","t","","o","d","p",
        "abc".toList⟩] "ab".toList).map
      (fun rs => rs.map SearchResult.id) = .ok ["i"]) :=
  ⟨rfl, rfl⟩

theorem scan_files_error_of_bad {files : List StoredFile} (q : Str)
    (h : StoredFile.malformed ∈ files ∨ StoredFile.noText ∈ files) :
    ∃ msg, scan_files files q = .error msg := by
  induction files with
  | nil => simp at h
  | cons f rest ih =>
    cases f with
    | malformed => exact ⟨_, rfl⟩
    | noText => exact ⟨_, rfl⟩
    | good data =>
      have h' : StoredFile.malformed ∈ rest ∨ StoredFile.noText ∈ rest := by
        rcases h with h | h
        · rcases List.mem_cons.mp h with h2 | h2
          · cases h2
          · exact Or.inl h2
        · rcases List.mem_cons.mp h with h2 | h2
          · cases h2
          · exact Or.inr h2
      obtain ⟨msg, hmsg⟩ := ih h'
      refine ⟨msg, ?_⟩
      rw [scan_files, hmsg]
      rfl

/-- C5 (amended): a stored record whose JSON is malformed or whose
`full_text` key is absent is NOT skipped: for every query of length at
least 2, its presence makes the whole search fail (the exception
propagates out of the handler), so no results are returned for the
remaining records either. -/
theorem C5_malformed_fatal :
    ∀ (files : List StoredFile) (q : Str), 2 ≤ q.length →
      (StoredFile.malformed ∈ files ∨ StoredFile.noText ∈ files) →
      ∃ msg, search_transcripts files q = .error msg := by
  intro files q h2 hbad
  obtain ⟨msg, hmsg⟩ := scan_files_error_of_bad (lowerStr q) hbad
  refine ⟨msg, ?_⟩
  unfold search_transcripts
  have hl : ¬ ((lowerStr q).length < 2) := by rw [lowerStr_length]; omega
  have hne : ¬ (lowerStr q).isEmpty = true := by
    rw [List.isEmpty_iff_length_eq_zero, lowerStr_length]
    omega
  rw [if_neg (by simp [hl, hne]), hmsg]
  rfl

theorem C5_malformed_fatal_witness :
    ∃ msg, search_transcripts [StoredFile.good ⟨"i","t","","o","d","p",
        "abc".toList⟩, StoredFile.malformed] "ab".toList = .error msg :=
  C5_malformed_fatal _ _ (by decide) (Or.inl (by decide))

/-- C6: `delete_transcript` answers `notFound` and leaves the store
untouched when the record is absent; when it exists, either the call
succeeds with both the record file and the derived text export gone, or it
surfaces an explicit error — and through the read path the record is in
every outcome either still fully present or fully gone (never partial). -/
theorem C6_delete_contract :
    ∀ (st : TStore) (tid : String) (f : DeleteFaults),
      (getJson st tid = none →
        delete_transcript st tid f = (.notFound, st)) ∧
      (getJson st tid ≠ none →
        ((delete_transcript st tid f).1 = .success →
          getJson (delete_transcript st tid f).2 tid = none ∧
          hasTxt (delete_transcript st tid f).2 tid = false) ∧
        ((delete_transcript st tid f).1 ≠ .success →
          ∃ msg, (delete_transcript st tid f).1 = .error msg) ∧
        (getJson (delete_transcript st tid f).2 tid = getJson st tid ∨
          getJson (delete_transcript st tid f).2 tid = none)) := by
  intro st tid f
  constructor
  · intro h
    unfold delete_transcript
    rw [h]
  · intro hne
    cases hg : getJson st tid with
    | none => exact absurd hg hne
    | some content =>
      have hd : delete_transcript st tid f =
          if content = .malformed then
            (.error "json.decoder.JSONDecodeError", st)
          else if f.removeJsonFails then (.error "OSError", st)
          else if hasTxt (removeJson st tid) tid then
            if f.removeTxtFails then (.error "OSError", removeJson st tid)
            else (.success, removeTxt (removeJson st tid) tid)
          else (.success, removeJson st tid) := by
        unfold delete_transcript
        rw [hg]
      rw [hd]
      by_cases hm : content = .malformed
      · rw [if_pos hm]
        exact ⟨fun hs => absurd hs (by simp), fun _ => ⟨_, rfl⟩, Or.inl hg⟩
      · rw [if_neg hm]
        by_cases hjf : f.removeJsonFails = true
        · rw [if_pos hjf]
          exact ⟨fun hs => absurd hs (by simp), fun _ => ⟨_, rfl⟩, Or.inl hg⟩
        · rw [if_neg hjf]
          by_cases hht : hasTxt (removeJson st tid) tid = true
          · rw [if_pos hht]
            by_cases htf : f.removeTxtFails = true
            · rw [if_pos htf]
              exact ⟨fun hs => absurd hs (by simp), fun _ => ⟨_, rfl⟩,
                Or.inr (getJson_removeJson st tid)⟩
            · rw [if_neg htf]
              refine ⟨fun _ => ⟨?_, hasTxt_removeTxt _ tid⟩,
                fun hns => absurd rfl hns, Or.inr ?_⟩
              · rw [getJson_removeTxt, getJson_removeJson]
              · rw [getJson_removeTxt, getJson_removeJson]
          · rw [if_neg hht]
            exact ⟨fun _ => ⟨getJson_removeJson st tid, by simpa using hht⟩,
              fun hns => absurd rfl hns,
              Or.inr (getJson_removeJson st tid)⟩

theorem C6_delete_contract_witness :
    getJson (delete_transcript ⟨[("a", .good ⟨"a","t","","o","d","p",
        ['h','i']⟩)], ["a"]⟩ "a" ⟨false, false⟩).2 "a" = none ∧
    hasTxt (delete_transcript ⟨[("a", .good ⟨"a","t","","o","d","p",
        ['h','i']⟩)], ["a"]⟩ "a" ⟨false, false⟩).2 "a" = false :=
  ((C6_delete_contract ⟨[("a", .good ⟨"a","t","","o","d","p",
      ['h','i']⟩)], ["a"]⟩ "a" ⟨false, false⟩).2
    (by decide)).1 (by decide)

/-- C7 counterexample: the claim promises exactly one outcome per
submitted item.  An item whose filename is empty is skipped by `continue`
without emitting any outcome: a batch of one such item yields zero
outcomes. -/
theorem C7_counterexample :
    (transcribe (fun _ => "u0") "now" none "" [⟨"", "", .ok "hello"⟩] 0
      ⟨[], []⟩).1 = [] ∧
    ([(⟨"", "", .ok "hello"⟩ : UploadItem)].length = 1) :=
  ⟨rfl, rfl⟩

/-- C7 (amended): the batch answers exactly one outcome per submitted item
whose filename is nonempty (empty-filename items are skipped silently,
with no outcome) — per-item success carrying a freshly generated id, or
per-item failure carrying the item's filename and the error text; a
failing item never aborts its siblings, and only successful items write a
record: a 3-item batch whose second item fails upstream yields 3 outcomes
(success, failure, success) and exactly 2 new records. -/
theorem C7_batch_outcomes :
    (∀ (gen : Nat → String) (now : String) (formTitle : Option String)
        (formTopic : String) (items : List UploadItem) (n : Nat)
        (st : AppState),
      List.Forall₂ (fun (item : UploadItem) (o : Outcome) =>
          match item.transcription with
          | .ok _ => ∃ k, o = .success (gen k) (formTitle.getD item.filename)
          | .error e => o = .failure item.filename e)
        (items.filter (fun i => i.filename != ""))
        (transcribe gen now formTitle formTopic items n st).1) ∧
    (∀ (gen : Nat → String) (now : String) (formTitle : Option String)
        (formTopic : String) (items : List UploadItem) (n : Nat)
        (st : AppState),
      (transcribe gen now formTitle formTopic items n st).2.1.transcripts.length =
        st.transcripts.length + (items.filter
          (fun i => i.filename != "" && i.transcription.isOk)).length) ∧
    ((transcribe (fun n => ["id0", "id1", "id2"].getD n "idX") "now" none ""
        [⟨"a.mp4", ".mp4", .ok "alpha"⟩,
         ⟨"b.mp4", ".mp4", .error "whisper failed"⟩,
         ⟨"c.mp4", ".mp4", .ok "gamma"⟩] 0
        ⟨[("old.mp4", true)], []⟩).1 =
      [.success "id0" "a.mp4", .failure "b.mp4" "whisper failed",
        .success "id2" "c.mp4"] ∧
     (transcribe (fun n => ["id0", "id1", "id2"].getD n "idX") "now" none ""
        [⟨"a.mp4", ".mp4", .ok "alpha"⟩,
         ⟨"b.mp4", ".mp4", .error "whisper failed"⟩,
         ⟨"c.mp4", ".mp4", .ok "gamma"⟩] 0
        ⟨[("old.mp4", true)], []⟩).2.1.transcripts.length = 2) :=
  ⟨fun gen now formTitle formTopic items n _st =>
     processItems_outcomes gen now formTitle formTopic items n _,
   fun gen now formTitle formTopic items n _st =>
     processItems_transcripts_length gen now formTitle formTopic items n _,
   rfl, rfl⟩

/-- C8: every emitted snippet's `highlight_len` equals the query length,
and `highlight_pos + highlight_len` never exceeds the length of the
emitted snippet string. -/
theorem C8_highlight_bounds :
    ∀ (store : List TranscriptData) (q : Str) (res : List SearchResult),
      2 ≤ q.length →
      search_transcripts (store.map .good) q = .ok res →
      ∀ r ∈ res, ∀ m ∈ r.matches',
        m.highlight_len = q.length ∧
        m.highlight_pos + m.highlight_len ≤ m.snippet.length := by
  intro store q res h2 h r hr m hm
  obtain ⟨data, -, p, hp, hmk⟩ := search_result_snips h2 h r hr m hm
  have hq : lowerStr q ≠ [] := by
    intro hnil
    have := lowerStr_length q
    rw [hnil] at this
    simp at this
    omega
  obtain ⟨hb, hlen⟩ := mkSnip_bounds hp hq
  subst hmk
  refine ⟨by rw [mkSnip_highlight_len, lowerStr_length], ?_⟩
  rw [hlen]
  omega

theorem C8_highlight_bounds_witness :
    (⟨['.','.','.','a','b','.','.','.'], 0, 2⟩ : Snip).highlight_len =
      (['a','b'] : Str).length ∧
    (⟨['.','.','.','a','b','.','.','.'], 0, 2⟩ : Snip).highlight_pos +
        (⟨['.','.','.','a','b','.','.','.'], 0, 2⟩ : Snip).highlight_len ≤
      (⟨['.','.','.','a','b','.','.','.'], 0, 2⟩ : Snip).snippet.length :=
  C8_highlight_bounds [⟨"i","t","","o","d","p",['a','b']⟩] ['a','b']
    [⟨"i","t","d",[⟨['.','.','.','a','b','.','.','.'],0,2⟩],1⟩]
    (by decide) rfl
    ⟨"i","t","d",[⟨['.','.','.','a','b','.','.','.'],0,2⟩],1⟩ (by decide)
    ⟨['.','.','.','a','b','.','.','.'], 0, 2⟩ (by decide)

/-- C9 (implicit): every snippet is cut from the lowercased copy of the
record's `full_text` (the same copy used for matching), so the emitted
snippet text is entirely lower case regardless of the record's original
casing. -/
theorem C9_lowercase_snippets :
    (∀ (q : Str) (data : TranscriptData) (r : SearchResult),
      scan_record q data = some r →
      ∀ m ∈ r.matches', ∃ a b,
        m.snippet =
          ellipsis ++ (((lowerStr data.transcript).drop a).take b) ++
            ellipsis) ∧
    (∀ (store : List TranscriptData) (q : Str) (res : List SearchResult),
      search_transcripts (store.map .good) q = .ok res →
      ∀ r ∈ res, ∀ m ∈ r.matches',
        m.snippet.map Char.toLower = m.snippet) := by
  constructor
  · intro q data r h m hm
    rw [scan_record_eq h] at hm
    simp only at hm
    rw [snippetsAux_eq_map] at hm
    obtain ⟨p, -, hmk⟩ := List.mem_map.mp hm
    exact ⟨p - 50, min (lowerStr data.transcript).length
      (p + q.length + 50) - (p - 50), by rw [← hmk, mkSnip_snippet]; rfl⟩
  · intro store q res h r hr m hm
    by_cases h2 : 2 ≤ q.length
    · obtain ⟨data, -, p, -, hmk⟩ := search_result_snips h2 h r hr m hm
      subst hmk
      rw [mkSnip_snippet]
      show (ellipsis ++ window (lowerStr data.transcript) (lowerStr q) p ++
        ellipsis).map Char.toLower = _
      rw [List.map_append, List.map_append]
      rw [show window (lowerStr data.transcript) (lowerStr q) p =
        ((lowerStr data.transcript).drop (p - 50)).take
          (min (lowerStr data.transcript).length
            (p + (lowerStr q).length + 50) - (p - 50)) from rfl]
      rw [map_toLower_take_drop]
      rfl
    · rw [search_transcripts_short (store.map .good) (by omega)] at h
      cases h
      cases hr

theorem C9_lowercase_snippets_witness :
    (⟨['.','.','.','a','b','.','.','.'], 0, 2⟩ : Snip).snippet.map
        Char.toLower =
      (⟨['.','.','.','a','b','.','.','.'], 0, 2⟩ : Snip).snippet :=
  C9_lowercase_snippets.2 [⟨"i","t","","o","d","p",['a','B']⟩] ['A','b']
    [⟨"i","t","d",[⟨['.','.','.','a','b','.','.','.'],0,2⟩],1⟩] rfl
    ⟨"i","t","d",[⟨['.','.','.','a','b','.','.','.'],0,2⟩],1⟩ (by decide)
    ⟨['.','.','.','a','b','.','.','.'], 0, 2⟩ (by decide)

/-- C10 (implicit): every ingestion request first empties the upload
folder of its regular files, so afterwards the folder holds exactly the
files saved by this request (plus non-regular entries): every media
artifact retained for a previously ingested record is gone — its record,
still present in the transcript folder, keeps a dangling `filepath`. -/
theorem C10_upload_folder_cleared :
    (∀ (gen : Nat → String) (now : String) (formTitle : Option String)
        (formTopic : String) (items : List UploadItem) (n : Nat)
        (st : AppState),
      (transcribe gen now formTitle formTopic items n st).2.1.uploads =
        st.uploads.filter (fun f => !f.2) ++ savedFiles gen items n) ∧
    (∀ (gen : Nat → String) (now : String) (formTitle : Option String)
        (formTopic : String) (items : List UploadItem) (n : Nat)
        (st : AppState),
      ∀ f ∈ st.uploads, f.2 = true → f ∉ savedFiles gen items n →
        f ∉ (transcribe gen now formTitle formTopic items n st).2.1.uploads) ∧
    (∀ (gen : Nat → String) (now : String) (formTitle : Option String)
        (formTopic : String) (items : List UploadItem) (n : Nat)
        (st : AppState),
      ∀ e ∈ st.transcripts,
        e ∈ (transcribe gen now formTitle formTopic items n st).2.1.transcripts) := by
  have h1 : ∀ (gen : Nat → String) (now : String) (formTitle : Option String)
      (formTopic : String) (items : List UploadItem) (n : Nat) (st : AppState),
      (transcribe gen now formTitle formTopic items n st).2.1.uploads =
        st.uploads.filter (fun f => !f.2) ++ savedFiles gen items n :=
    fun gen now formTitle formTopic items n st =>
      processItems_uploads gen now formTitle formTopic items n _
  have h3 : ∀ (gen : Nat → String) (now : String) (formTitle : Option String)
      (formTopic : String) (items : List UploadItem) (n : Nat) (st : AppState),
      (transcribe gen now formTitle formTopic items n st).2.1.transcripts =
        st.transcripts ++ newRecords gen now formTitle formTopic items n :=
    fun gen now formTitle formTopic items n st =>
      processItems_transcripts gen now formTitle formTopic items n _
  refine ⟨h1,
    fun gen now formTitle formTopic items n st f hf hreg hsaved hmem => ?_,
    fun gen now formTitle formTopic items n st e he => ?_⟩
  · rw [h1 gen now formTitle formTopic items n st] at hmem
    rcases List.mem_append.mp hmem with hmem | hmem
    · have := (List.mem_filter.mp hmem).2
      rw [hreg] at this
      simp at this
    · exact hsaved hmem
  · rw [h3 gen now formTitle formTopic items n st]
    exact List.mem_append_left _ he

theorem C10_upload_folder_cleared_witness :
    ("old.mp4", true) ∉ (transcribe (fun _ => "id0") "now" none ""
      [⟨"a.mp4", ".mp4", .ok "alpha"⟩] 0
      ⟨[("old.mp4", true)], []⟩).2.1.uploads :=
  C10_upload_folder_cleared.2.1 (fun _ => "id0") "now" none ""
    [⟨"a.mp4", ".mp4", .ok "alpha"⟩] 0 ⟨[("old.mp4", true)], []⟩
    ("old.mp4", true) (by decide) rfl (by decide)
